import Mathlib

/-!
Formal model of the `StorageService` persistence engine of the
markdown-online repository (notes, folders, derived tags), together with
proofs of the specified properties.

Modelling conventions:
- `Date.now()` is an explicit `now : Nat` argument; `generateId()` is an
  explicit fresh-id argument.
- JavaScript `string | null` fields are `Option String`; the three-state
  `folderId?: string | null` parameter of `updateNote` is
  `Option (Option String)` (`none` = argument omitted, `some none` = null,
  `some (some f)` = a folder id).
- The regex scans (`/#([\w一-龥]+)/g` tag extraction, the bounded
  `#tag(?![\w一-龥])` token replacement of renameTag/deleteTag, and
  the `/\s{2,}/g` whitespace collapse of deleteTag) are rendered as
  left-to-right character scanners.  Each scanner carries a `Nat` fuel that
  strictly decreases on every step; the public wrapper passes the input
  length, which is always sufficient, so the fuel never runs out.  This
  keeps the definitions structurally recursive and kernel-computable.
- `localStorage` is modelled for the read path as
  `Option (Option (List _))`: `none` = key never written, `some none` =
  blob present but unparseable, `some (some l)` = parsed list.
-/

/-- A character matched by `[\w一-龥]` in a JavaScript regex:
ASCII letters, digits, underscore, or a CJK ideograph U+4E00–U+9FA5. -/
def isTagChar (c : Char) : Bool :=
  let n := c.toNat
  (65 ≤ n && n ≤ 90) || (97 ≤ n && n ≤ 122) || (48 ≤ n && n ≤ 57) || n == 95
    || (0x4e00 ≤ n && n ≤ 0x9fa5)

/-- A character matched by `\s` in a JavaScript regex. -/
def isJsWs (c : Char) : Bool :=
  let n := c.toNat
  n == 9 || n == 10 || n == 11 || n == 12 || n == 13 || n == 32
    || n == 0xa0 || n == 0x1680 || (0x2000 ≤ n && n ≤ 0x200a)
    || n == 0x2028 || n == 0x2029 || n == 0x202f || n == 0x205f
    || n == 0x3000 || n == 0xfeff

/-- Fueled scan of `content.match(/#([\w一-龥]+)/g)`: at a `#`,
a nonempty maximal run of tag characters is one match (returned without the
`#`, as in `tag.substring(1)`), and scanning resumes after the run;
otherwise the scan advances one character. -/
def tagMatchesF : Nat → List Char → List String
  | _, [] => []
  | 0, _ :: _ => []
  | fuel + 1, c :: rest =>
    if c == '#' then
      match rest.takeWhile isTagChar with
      | [] => tagMatchesF fuel rest
      | run@(_ :: _) => String.mk run :: tagMatchesF fuel (rest.dropWhile isTagChar)
    else tagMatchesF fuel rest

/-- All hashtag matches of a character list, in scan order. -/
def tagMatches (l : List Char) : List String :=
  tagMatchesF l.length l

/-- `Array.from(new Set(l))`: deduplicate keeping the first occurrence of
each element, in order; `seen` accumulates the elements already emitted. -/
def dedupAux : List String → List String → List String
  | [], _ => []
  | x :: xs, seen =>
    if seen.contains x then dedupAux xs seen else x :: dedupAux xs (x :: seen)

/-- `StorageService.extractTags`: hashtag tokens of the content, `#`
stripped, deduplicated keeping first occurrences. -/
def extractTags (content : String) : List String :=
  dedupAux (tagMatches content.data) []

/-- `pat` is a prefix of the second list (character-wise). -/
def startsWith : List Char → List Char → Bool
  | [], _ => true
  | _ :: _, [] => false
  | p :: ps, c :: cs => p == c && startsWith ps cs

/-- The negative lookahead `(?![\w一-龥])`: the remaining input is
empty or starts with a non-tag character. -/
def boundaryOk : List Char → Bool
  | [] => true
  | d :: _ => !(isTagChar d)

/-- Fueled scan of `content.replace(new RegExp("#" + tag + "(?![\\w\\u4e00-\\u9fa5])", "g"), rep)`:
at each position, if the literal token `#` ++ `pat` occurs and is not
immediately followed by a tag character, it is replaced by `rep` and the
scan resumes after the token; otherwise the scan advances one character. -/
def replTokF (pat rep : List Char) : Nat → List Char → List Char
  | _, [] => []
  | 0, l => l
  | fuel + 1, c :: rest =>
    if c == '#' && startsWith pat rest && boundaryOk (rest.drop pat.length) then
      rep ++ replTokF pat rep fuel (rest.drop pat.length)
    else c :: replTokF pat rep fuel rest

/-- Replace every bounded occurrence of the token `#` ++ `pat` by `rep`. -/
def replTok (pat rep l : List Char) : List Char :=
  replTokF pat rep l.length l

/-- Fueled scan of `content.replace(/\s{2,}/g, " ")`: a maximal run of two
or more whitespace characters becomes a single space; a lone whitespace
character and every other character are kept. -/
def collapseF : Nat → List Char → List Char
  | _, [] => []
  | 0, _ :: _ => []
  | fuel + 1, c :: rest =>
    if isJsWs c then
      match rest with
      | [] => [c]
      | d :: _ =>
        if isJsWs d then ' ' :: collapseF fuel (rest.dropWhile isJsWs)
        else c :: collapseF fuel rest
    else c :: collapseF fuel rest

/-- Collapse every run of two or more whitespace characters to one space. -/
def collapseWs (l : List Char) : List Char :=
  collapseF l.length l

/-- `true` iff the list has no two adjacent whitespace characters, i.e. no
run of two or more whitespace characters anywhere. -/
def noWsRun : List Char → Bool
  | [] => true
  | [_] => true
  | a :: b :: t => (!(isJsWs a && isJsWs b)) && noWsRun (b :: t)

/-- The `Note` record of `types.ts`. -/
structure Note where
  id : String
  content : String
  createdAt : Nat
  updatedAt : Nat
  isPinned : Bool
  isTrashed : Bool
  tags : List String
  folderId : Option String
  deriving DecidableEq, Repr

/-- The `Folder` record of `types.ts`. -/
structure Folder where
  id : String
  name : String
  parentId : Option String
  createdAt : Nat
  deriving DecidableEq, Repr

/-- The persisted state: the `notes` and `folders` collections. -/
structure Store where
  notes : List Note
  folders : List Folder
  deriving DecidableEq, Repr

/-- The state before any write: both collections empty. -/
def emptyStore : Store := { notes := [], folders := [] }

/-- `findIndex` followed by an in-place update of the found element:
`none` when no element satisfies `p`, otherwise the updated list together
with the updated element. -/
def updateFirst {α : Type} (p : α → Bool) (f : α → α) : List α → Option (List α × α)
  | [] => none
  | x :: xs =>
    if p x then some (f x :: xs, f x)
    else
      match updateFirst p f xs with
      | none => none
      | some (ys, r) => some (x :: ys, r)

/-- The predicate `n => n.id === id` of the note `findIndex` calls. -/
def noteIdEq (id : String) (n : Note) : Bool :=
  n.id == id

/-- The predicate `f => f.id === id` of the folder `findIndex` calls. -/
def folderIdEq (id : String) (f : Folder) : Bool :=
  f.id == id

/-- The record update `updateNote` performs on the found note. -/
def updateNoteFun (content : String) (now : Nat) (folderId : Option (Option String))
    (n : Note) : Note :=
  { n with content := content, updatedAt := now, tags := extractTags content,
           folderId := match folderId with
             | none => n.folderId
             | some f => f }

/-- The record update `togglePin` performs on the found note. -/
def togglePinFun (n : Note) : Note :=
  { n with isPinned := !n.isPinned }

/-- The record update `moveToTrash` performs on the found note. -/
def trashFun (n : Note) : Note :=
  { n with isTrashed := true, isPinned := false }

/-- The record update `restoreFromTrash` performs on the found note. -/
def restoreFun (n : Note) : Note :=
  { n with isTrashed := false }

/-- The record update `updateFolder` performs on the found folder. -/
def renameFolderFun (name : String) (f : Folder) : Folder :=
  { f with name := name }

/-- `StorageService.createNote`: prepend a fresh note with
`createdAt = updatedAt = now`, not pinned, not trashed, tags extracted from
the content; returns the new store and the new note. -/
def createNote (s : Store) (newId : String) (now : Nat) (content : String)
    (folderId : Option String) : Store × Note :=
  let newNote : Note :=
    { id := newId, content := content, createdAt := now, updatedAt := now,
      isPinned := false, isTrashed := false, tags := extractTags content,
      folderId := folderId }
  ({ s with notes := newNote :: s.notes }, newNote)

/-- `StorageService.updateNote`: on the first note with the given id,
replace the content, recompute tags, bump `updatedAt`; the folder is
changed only when the `folderId` argument is provided (`some`). Returns
`none` and leaves the store unchanged when the id is absent. -/
def updateNote (s : Store) (id content : String) (now : Nat)
    (folderId : Option (Option String)) : Store × Option Note :=
  match updateFirst (noteIdEq id) (updateNoteFun content now folderId) s.notes with
  | none => (s, none)
  | some (ns, r) => ({ s with notes := ns }, some r)

/-- `StorageService.togglePin`: flip `isPinned` on the first note with the
given id; `none` when absent. -/
def togglePin (s : Store) (id : String) : Store × Option Note :=
  match updateFirst (noteIdEq id) togglePinFun s.notes with
  | none => (s, none)
  | some (ns, r) => ({ s with notes := ns }, some r)

/-- `StorageService.moveToTrash`: set `isTrashed := true` and
`isPinned := false` on the first note with the given id. -/
def moveToTrash (s : Store) (id : String) : Store :=
  match updateFirst (noteIdEq id) trashFun s.notes with
  | none => s
  | some (ns, _) => { s with notes := ns }

/-- `StorageService.restoreFromTrash`: set `isTrashed := false` on the
first note with the given id. -/
def restoreFromTrash (s : Store) (id : String) : Store :=
  match updateFirst (noteIdEq id) restoreFun s.notes with
  | none => s
  | some (ns, _) => { s with notes := ns }

/-- `StorageService.deletePermanently`: remove every note with the given
id from the collection. -/
def deletePermanently (s : Store) (id : String) : Store :=
  { s with notes := s.notes.filter (fun n => !(n.id == id)) }

/-- The comparator `(a, b) => b.updatedAt - a.updatedAt` of
`getAllNotes`, as the ordering test "a may come before b". -/
def byUpdatedAtDesc (a b : Note) : Bool :=
  decide (b.updatedAt ≤ a.updatedAt)

/-- `StorageService.getAllNotes`: the notes sorted by `updatedAt`
descending; `Array.prototype.sort` is stable, modelled by `mergeSort`. -/
def getAllNotes (s : Store) : List Note :=
  s.notes.mergeSort byUpdatedAtDesc

/-- The note transformation of `StorageService.renameTag` applied to an
affected note: replace the bounded token, recompute tags, bump
`updatedAt`. -/
def renameTagNote (oldTag newTag : String) (now : Nat) (n : Note) : Note :=
  let newContent := String.mk (replTok oldTag.data ('#' :: newTag.data) n.content.data)
  { n with content := newContent, tags := extractTags newContent, updatedAt := now }

/-- `StorageService.renameTag`: every note whose `tags` field contains
`oldTag` is rewritten by `renameTagNote`; the boolean reports whether any
note was affected, i.e. whether `saveNotesToStorage` was called. -/
def renameTag (s : Store) (oldTag newTag : String) (now : Nat) : Store × Bool :=
  let wrote := s.notes.any (fun n => n.tags.contains oldTag)
  let ns := s.notes.map (fun n =>
    if n.tags.contains oldTag then renameTagNote oldTag newTag now n else n)
  (if wrote then { s with notes := ns } else s, wrote)

/-- The note transformation of `StorageService.deleteTag` applied to an
affected note: remove the bounded token, collapse whitespace runs,
recompute tags, bump `updatedAt`. -/
def deleteTagNote (tag : String) (now : Nat) (n : Note) : Note :=
  let newContent := String.mk (collapseWs (replTok tag.data [] n.content.data))
  { n with content := newContent, tags := extractTags newContent, updatedAt := now }

/-- `StorageService.deleteTag`: every note whose `tags` field contains the
tag is rewritten by `deleteTagNote`; the boolean reports whether any note
was affected, i.e. whether `saveNotesToStorage` was called. -/
def deleteTag (s : Store) (tag : String) (now : Nat) : Store × Bool :=
  let wrote := s.notes.any (fun n => n.tags.contains tag)
  let ns := s.notes.map (fun n =>
    if n.tags.contains tag then deleteTagNote tag now n else n)
  (if wrote then { s with notes := ns } else s, wrote)

/-- `StorageService.createFolder`: append a fresh folder with
`createdAt = now`. -/
def createFolder (s : Store) (newId : String) (now : Nat) (name : String)
    (parentId : Option String) : Store × Folder :=
  let f : Folder := { id := newId, name := name, parentId := parentId, createdAt := now }
  ({ s with folders := s.folders ++ [f] }, f)

/-- `StorageService.updateFolder`: rename the first folder with the given
id; silently unchanged when absent. -/
def updateFolder (s : Store) (id name : String) : Store :=
  match updateFirst (folderIdEq id) (renameFolderFun name) s.folders with
  | none => s
  | some (fs, _) => { s with folders := fs }

/-- `StorageService.deleteFolder`: detach every note of the folder to the
root, promote every child folder to the root, then remove the folder
record itself. -/
def deleteFolder (s : Store) (id : String) : Store :=
  let ns := s.notes.map (fun n =>
    if n.folderId == some id then { n with folderId := none } else n)
  let fs := (s.folders.map (fun f =>
    if f.parentId == some id then { f with parentId := none } else f)).filter
      (fun f => !(f.id == id))
  { notes := ns, folders := fs }

/-- `StorageService.getNotesFromStorage`: `none` (key never written) and
`some none` (blob present but unparseable, the `catch` branch) both yield
the empty collection. -/
def getNotesFromStorage : Option (Option (List Note)) → List Note
  | none => []
  | some none => []
  | some (some ns) => ns

/-- `StorageService.getFoldersFromStorage`: as for notes. -/
def getFoldersFromStorage : Option (Option (List Folder)) → List Folder
  | none => []
  | some none => []
  | some (some fs) => fs

/-- The store as read back from raw storage blobs. -/
def loadStore (rawNotes : Option (Option (List Note)))
    (rawFolders : Option (Option (List Folder))) : Store :=
  { notes := getNotesFromStorage rawNotes, folders := getFoldersFromStorage rawFolders }

/-- One mutating operation of the engine's public contract (§4), with the
clock and fresh ids as explicit data. -/
inductive Op where
  | opCreate (newId : String) (now : Nat) (content : String) (folderId : Option String)
  | opUpdate (id content : String) (now : Nat) (folderId : Option (Option String))
  | opTogglePin (id : String)
  | opMoveToTrash (id : String)
  | opRestore (id : String)
  | opDeletePermanently (id : String)
  | opRenameTag (oldTag newTag : String) (now : Nat)
  | opDeleteTag (tag : String) (now : Nat)
  | opCreateFolder (newId : String) (now : Nat) (name : String) (parentId : Option String)
  | opUpdateFolder (id name : String)
  | opDeleteFolder (id : String)
  deriving DecidableEq, Repr

/-- The state transformer of one operation (returned values discarded). -/
def applyOp (s : Store) : Op → Store
  | .opCreate newId now content folderId => (createNote s newId now content folderId).1
  | .opUpdate id content now folderId => (updateNote s id content now folderId).1
  | .opTogglePin id => (togglePin s id).1
  | .opMoveToTrash id => moveToTrash s id
  | .opRestore id => restoreFromTrash s id
  | .opDeletePermanently id => deletePermanently s id
  | .opRenameTag oldTag newTag now => (renameTag s oldTag newTag now).1
  | .opDeleteTag tag now => (deleteTag s tag now).1
  | .opCreateFolder newId now name parentId => (createFolder s newId now name parentId).1
  | .opUpdateFolder id name => updateFolder s id name
  | .opDeleteFolder id => deleteFolder s id

/-- The state reached from the empty store by a sequence of operations. -/
def runOps (ops : List Op) : Store :=
  ops.foldl applyOp emptyStore

/-- Trashed notes are never pinned. -/
def TrashInv (s : Store) : Prop :=
  ∀ n ∈ s.notes, n.isTrashed = true → n.isPinned = false

/-- Every note's `tags` field is exactly the extraction from its current
content. -/
def TagsInv (s : Store) : Prop :=
  ∀ n ∈ s.notes, n.tags = extractTags n.content

/-- A fresh note as `createNote` builds it, for concrete test states. -/
def mkNote (id content : String) (t : Nat) : Note :=
  { id := id, content := content, createdAt := t, updatedAt := t,
    isPinned := false, isTrashed := false, tags := extractTags content,
    folderId := none }

/-- A one-note store holding the spec's rename example. -/
def reviewStore : Store :=
  { notes := [mkNote "n1" "Review #idea please" 1], folders := [] }

/-- A one-note store whose only note's content is the single tag token
`#ideaX`. -/
def ideaXStore : Store :=
  { notes := [mkNote "n1" "#ideaX" 1], folders := [] }

/-- A one-note store holding the spec's delete-tag example. -/
def checkStore : Store :=
  { notes := [mkNote "n1" "Check #idea   now" 1], folders := [] }

/-- A one-note store whose note has a pre-existing double space and a
blank line, plus a tag token. -/
def paraStore : Store :=
  { notes := [mkNote "n1" "A  B\n\nC #idea D" 1], folders := [] }

/-- A note filed in the folder with id "F". -/
def noteInF : Note :=
  { mkNote "n1" "hello" 5 with folderId := some "F" }

/-- A child folder of the folder with id "F". -/
def childFolder : Folder :=
  { id := "C", name := "child", parentId := some "F", createdAt := 0 }

/-- A store with a folder "F", a child folder of "F", and a note in "F". -/
def folderStore : Store :=
  { notes := [noteInF],
    folders := [{ id := "F", name := "fold", parentId := none, createdAt := 0 }, childFolder] }

/-- `updateFirst` finds nothing when no element satisfies the predicate. -/
theorem updateFirst_none {α : Type} (p : α → Bool) (f : α → α) :
    ∀ l : List α, (∀ x ∈ l, p x = false) → updateFirst p f l = none
  | [], _ => rfl
  | x :: xs, h => by
    have hx : p x = false := h x (List.mem_cons_self x xs)
    have ih := updateFirst_none p f xs (fun y hy => h y (List.mem_cons_of_mem x hy))
    simp [updateFirst, hx, ih]

/-- `updateFirst` on a list split at the first matching element. -/
theorem updateFirst_append {α : Type} (p : α → Bool) (f : α → α) :
    ∀ (pre : List α) (x : α) (post : List α), (∀ m ∈ pre, p m = false) → p x = true →
      updateFirst p f (pre ++ x :: post) = some (pre ++ f x :: post, f x)
  | [], x, post, _, hx => by simp [updateFirst, hx]
  | m :: pre, x, post, h, hx => by
    have hm : p m = false := h m (List.mem_cons_self m pre)
    have ih := updateFirst_append p f pre x post
      (fun y hy => h y (List.mem_cons_of_mem m hy)) hx
    simp [updateFirst, hm, ih]

/-- A successful `updateFirst` decomposes the list at the first matching
element. -/
theorem updateFirst_eq_some {α : Type} {p : α → Bool} {f : α → α} :
    ∀ {l l' : List α} {r : α}, updateFirst p f l = some (l', r) →
      ∃ pre x post, l = pre ++ x :: post ∧ (∀ m ∈ pre, p m = false) ∧ p x = true ∧
        l' = pre ++ f x :: post ∧ r = f x := by
  intro l
  induction l with
  | nil => intro l' r h; simp [updateFirst] at h
  | cons x xs ih =>
    intro l' r h
    by_cases hx : p x
    · simp [updateFirst, hx] at h
      exact ⟨[], x, xs, rfl, by simp, hx, by simp [h.1.symm], h.2.symm⟩
    · cases hrec : updateFirst p f xs with
      | none => simp [updateFirst, hx, hrec] at h
      | some pr =>
        obtain ⟨ys, r0⟩ := pr
        simp [updateFirst, hx, hrec] at h
        obtain ⟨pre, y, post, hl, hpre, hy, hl', hr⟩ := ih hrec
        refine ⟨x :: pre, y, post, by rw [hl]; rfl, ?_, hy, ?_, ?_⟩
        · intro m hm
          rcases List.mem_cons.mp hm with rfl | hm'
          · simpa using hx
          · exact hpre m hm'
        · rw [← h.1, hl']; rfl
        · rw [← h.2, hr]

/-- `updateFirst` preserves any projection the update function preserves. -/
theorem updateFirst_map_inv {α β : Type} {p : α → Bool} {f : α → α} (proj : α → β)
    (hproj : ∀ x, proj (f x) = proj x) {l l' : List α} {r : α}
    (h : updateFirst p f l = some (l', r)) : l'.map proj = l.map proj := by
  obtain ⟨pre, x, post, hl, _, _, hl', _⟩ := updateFirst_eq_some h
  subst hl'
  subst hl
  simp [hproj]

/-- Every element of the list after a successful `updateFirst` is either
an original element or the image of a matching original element. -/
theorem updateFirst_mem {α : Type} {p : α → Bool} {f : α → α} {l l' : List α} {r : α}
    (h : updateFirst p f l = some (l', r)) :
    ∀ x ∈ l', x ∈ l ∨ ∃ y, y ∈ l ∧ p y = true ∧ x = f y := by
  obtain ⟨pre, y, post, hl, _, hy, hl', _⟩ := updateFirst_eq_some h
  subst hl'
  subst hl
  intro x hx
  rcases List.mem_append.mp hx with h1 | h2
  · exact Or.inl (List.mem_append.mpr (Or.inl h1))
  · rcases List.mem_cons.mp h2 with h3 | h4
    · exact Or.inr ⟨y, List.mem_append.mpr (Or.inr (List.mem_cons_self y post)), hy, h3⟩
    · exact Or.inl (List.mem_append.mpr (Or.inr (List.mem_cons_of_mem y h4)))

/-- The head surviving `dropWhile` fails the predicate. -/
theorem dropWhile_head_false (p : Char → Bool) :
    ∀ (l : List Char) (d : Char), (l.dropWhile p).head? = some d → p d = false := by
  intro l
  induction l with
  | nil => intro d h; simp [List.dropWhile] at h
  | cons c t ih =>
    intro d h
    by_cases hc : p c
    · rw [List.dropWhile_cons_of_pos hc] at h
      exact ih d h
    · rw [List.dropWhile_cons_of_neg hc] at h
      simp at h
      rw [← h]
      simpa using hc

/-- `collapseF` keeps a non-whitespace head non-whitespace. -/
theorem collapseF_head_not_ws :
    ∀ (fuel : Nat) (l : List Char), (∀ d, l.head? = some d → isJsWs d = false) →
      ∀ d, (collapseF fuel l).head? = some d → isJsWs d = false := by
  intro fuel l
  match fuel, l with
  | _, [] => intro _ d hd; simp [collapseF] at hd
  | 0, c :: rest => intro _ d hd; simp [collapseF] at hd
  | fuel + 1, c :: rest =>
    intro hl d hd
    have hc : isJsWs c = false := hl c rfl
    simp [collapseF, hc] at hd
    rw [← hd]
    exact hc

/-- Prepending a character to a run-free list whose interaction with the
head is whitespace-safe keeps it run-free. -/
theorem noWsRun_cons {a : Char} {X : List Char}
    (h1 : ∀ d, X.head? = some d → (isJsWs a && isJsWs d) = false)
    (h2 : noWsRun X = true) : noWsRun (a :: X) = true := by
  match X with
  | [] => rfl
  | d :: t =>
    have hd := h1 d rfl
    simp [noWsRun, hd]
    simpa using h2

/-- The tail of a run-free list is run-free. -/
theorem noWsRun_tail {a : Char} {X : List Char} (h : noWsRun (a :: X) = true) :
    noWsRun X = true := by
  match X with
  | [] => rfl
  | d :: t =>
    simp [noWsRun] at h
    simpa using h.2

/-- The whitespace collapse never leaves two adjacent whitespace
characters, at any fuel. -/
theorem noWsRun_collapseF : ∀ (fuel : Nat) (l : List Char), noWsRun (collapseF fuel l) = true
  | _, [] => by simp [collapseF, noWsRun]
  | 0, _ :: _ => rfl
  | fuel + 1, c :: rest => by
    by_cases hc : isJsWs c
    · match rest with
      | [] => simp [collapseF, hc]; rfl
      | d :: t =>
        by_cases hd : isJsWs d
        · have hr := noWsRun_collapseF fuel (t.dropWhile isJsWs)
          have hh : ∀ e, (collapseF fuel (t.dropWhile isJsWs)).head? = some e →
              isJsWs e = false :=
            collapseF_head_not_ws fuel _ (dropWhile_head_false isJsWs t)
          simp [collapseF, hc, hd]
          exact noWsRun_cons (fun e he => by simp [hh e he]) hr
        · have hr := noWsRun_collapseF fuel (d :: t)
          have hh : ∀ e, (collapseF fuel (d :: t)).head? = some e → isJsWs e = false := by
            refine collapseF_head_not_ws fuel (d :: t) ?_
            intro x hx
            simp at hx
            rw [← hx]
            simpa using hd
          simp [collapseF, hc, hd]
          exact noWsRun_cons (fun e he => by simp [hh e he]) hr
    · have hr := noWsRun_collapseF fuel rest
      simp [collapseF, hc]
      exact noWsRun_cons (fun e _ => by simp [hc]) hr

/-- The whitespace collapse is the identity on run-free input (with
enough fuel). -/
theorem collapseF_eq_self : ∀ (fuel : Nat) (l : List Char), l.length ≤ fuel →
    noWsRun l = true → collapseF fuel l = l
  | _, [], _, _ => by simp [collapseF]
  | 0, c :: rest, hlen, _ => by simp at hlen
  | fuel + 1, c :: rest, hlen, hok => by
    have hlen' : rest.length ≤ fuel := by simp at hlen; omega
    by_cases hc : isJsWs c
    · match rest with
      | [] => simp [collapseF, hc]
      | d :: t =>
        have hd : isJsWs d = false := by
          simp [noWsRun, hc] at hok
          simpa using hok.1
        simp [collapseF, hc, hd]
        exact collapseF_eq_self fuel (d :: t) hlen' (noWsRun_tail hok)
    · simp [collapseF, hc]
      exact collapseF_eq_self fuel rest hlen' (noWsRun_tail hok)

/-- The descending-`updatedAt` comparator is transitive. -/
theorem byUpdatedAtDesc_trans : ∀ (a b c : Note),
    byUpdatedAtDesc a b → byUpdatedAtDesc b c → byUpdatedAtDesc a c := by
  intro a b c hab hbc
  simp [byUpdatedAtDesc] at *
  omega

/-- The descending-`updatedAt` comparator is total. -/
theorem byUpdatedAtDesc_total : ∀ (a b : Note),
    byUpdatedAtDesc a b || byUpdatedAtDesc b a := by
  intro a b
  simp [byUpdatedAtDesc]
  omega

/-- Stable sorting a list whose first element may come before every other
element keeps that element first. -/
theorem mergeSort_cons_of_le {a : Note} {l : List Note}
    (h : ∀ b ∈ l, byUpdatedAtDesc a b = true) :
    (a :: l).mergeSort byUpdatedAtDesc = a :: l.mergeSort byUpdatedAtDesc := by
  obtain ⟨l₁, l₂, h1, h2, h3⟩ :=
    List.mergeSort_cons byUpdatedAtDesc_trans byUpdatedAtDesc_total a l
  have hl₁ : l₁ = [] := by
    cases l₁ with
    | nil => rfl
    | cons b t =>
      exfalso
      have hb : b ∈ (a :: l).mergeSort byUpdatedAtDesc := by
        rw [h1]
        exact List.mem_append.mpr (Or.inl (List.mem_cons_self b t))
      have hb' : b ∈ a :: l := List.mem_mergeSort.mp hb
      have hab : byUpdatedAtDesc a b = true := by
        rcases List.mem_cons.mp hb' with rfl | hbl
        · simp [byUpdatedAtDesc]
        · exact h b hbl
      have hne := h3 b (List.mem_cons_self b t)
      simp [hab] at hne
  subst hl₁
  simp only [List.nil_append] at h1 h2
  rw [h1, h2]

/-- A failed `updateFirst` means no element matches. -/
theorem updateFirst_eq_none {α : Type} {p : α → Bool} {f : α → α} :
    ∀ {l : List α}, updateFirst p f l = none → ∀ x ∈ l, p x = false := by
  intro l
  induction l with
  | nil => intro _ x hx; simp at hx
  | cons y ys ih =>
    intro h x hx
    by_cases hy : p y
    · simp [updateFirst, hy] at h
    · rcases List.mem_cons.mp hx with rfl | hx'
      · simpa using hy
      · cases hrec : updateFirst p f ys with
        | none => exact ih hrec x hx'
        | some pr => simp [updateFirst, hy, hrec] at h

/-- A successful `updateFirst` preserves any property preserved by the
update function. -/
theorem updateFirst_pres {α : Type} {P : α → Prop} {p : α → Bool} {f : α → α}
    (hf : ∀ x, P x → P (f x)) {l l' : List α} {r : α}
    (h : updateFirst p f l = some (l', r)) (hl : ∀ n ∈ l, P n) :
    ∀ n ∈ l', P n := by
  intro n hn
  rcases updateFirst_mem h n hn with h1 | ⟨y, hy, _, rfl⟩
  · exact hl n h1
  · exact hf y (hl y hy)

/-- C9: a missing storage key and an unparseable blob both read back as
the empty collection, for notes and for folders, and a store loaded from
two such blobs is the empty store, so subsequent operations behave as on
empty collections. -/
theorem C9_corrupt_storage_reads_empty (rawN : Option (Option (List Note)))
    (rawF : Option (Option (List Folder)))
    (hN : rawN = none ∨ rawN = some none) (hF : rawF = none ∨ rawF = some none) :
    getNotesFromStorage rawN = [] ∧ getFoldersFromStorage rawF = [] ∧
      loadStore rawN rawF = emptyStore := by
  rcases hN with rfl | rfl <;> rcases hF with rfl | rfl <;> exact ⟨rfl, rfl, rfl⟩

/-- Witness for C9 at concrete corrupt and missing blobs. -/
theorem C9_corrupt_storage_reads_empty_witness :
    getNotesFromStorage (some none) = [] ∧ getFoldersFromStorage none = [] ∧
      loadStore (some none) none = emptyStore :=
  C9_corrupt_storage_reads_empty (some none) none (Or.inr rfl) (Or.inl rfl)

/-- C3: after `deleteFolder id`, no note points at the folder, no folder
has it as parent, the folder record is gone; notes previously in it are
detached to root, child folders survive promoted to root, and notes not
in it (in particular notes in its child folders) are unchanged. -/
theorem C3_deleteFolder_cascades (s : Store) (id : String) :
    (∀ n ∈ (deleteFolder s id).notes, n.folderId ≠ some id) ∧
    (∀ f ∈ (deleteFolder s id).folders, f.parentId ≠ some id) ∧
    (∀ f ∈ (deleteFolder s id).folders, f.id ≠ id) ∧
    (∀ n ∈ s.notes, n.folderId = some id →
      { n with folderId := none } ∈ (deleteFolder s id).notes) ∧
    (∀ f ∈ s.folders, f.id ≠ id → f.parentId = some id →
      { f with parentId := none } ∈ (deleteFolder s id).folders) ∧
    (∀ n ∈ s.notes, n.folderId ≠ some id → n ∈ (deleteFolder s id).notes) := by
  refine ⟨?_, ?_, ?_, ?_, ?_, ?_⟩
  · intro n hn
    simp only [deleteFolder, List.mem_map] at hn
    obtain ⟨m, hm, hgm⟩ := hn
    by_cases h : m.folderId = some id
    · simp [h] at hgm
      rw [← hgm]
      simp
    · simp [h] at hgm
      rw [← hgm]
      exact h
  · intro f hf
    simp only [deleteFolder, List.mem_filter, List.mem_map] at hf
    obtain ⟨⟨m, hm, hgm⟩, _⟩ := hf
    by_cases h : m.parentId = some id
    · simp [h] at hgm
      rw [← hgm]
      simp
    · simp [h] at hgm
      rw [← hgm]
      exact h
  · intro f hf
    simp only [deleteFolder, List.mem_filter] at hf
    have := hf.2
    simpa using this
  · intro n hn h
    simp only [deleteFolder, List.mem_map]
    exact ⟨n, hn, by simp [h]⟩
  · intro f hf hid h
    simp only [deleteFolder, List.mem_filter, List.mem_map]
    refine ⟨⟨f, hf, by simp [h]⟩, by simpa using hid⟩
  · intro n hn h
    simp only [deleteFolder, List.mem_map]
    exact ⟨n, hn, by simp [h]⟩

/-- C4: on an existing note, `updateNote` with the folder argument
omitted keeps the prior `folderId`, with explicit null clears it, and
with a folder id sets it; in all three shapes the content is replaced,
the tags are recomputed from the new content, and `updatedAt` becomes
`now`. -/
theorem C4_updateNote_three_shapes (s : Store) (id content : String) (now : Nat)
    (pre : List Note) (n : Note) (post : List Note) (fid : String)
    (hs : s.notes = pre ++ n :: post) (hpre : ∀ m ∈ pre, m.id ≠ id) (hn : n.id = id) :
    updateNote s id content now none =
      ({ s with notes := pre ++ { n with content := content, updatedAt := now, tags := extractTags content } :: post },
       some { n with content := content, updatedAt := now, tags := extractTags content }) ∧
    updateNote s id content now (some none) =
      ({ s with notes := pre ++ { n with content := content, updatedAt := now, tags := extractTags content, folderId := none } :: post },
       some { n with content := content, updatedAt := now, tags := extractTags content, folderId := none }) ∧
    updateNote s id content now (some (some fid)) =
      ({ s with notes := pre ++ { n with content := content, updatedAt := now, tags := extractTags content, folderId := some fid } :: post },
       some { n with content := content, updatedAt := now, tags := extractTags content, folderId := some fid }) := by
  have hpre' : ∀ m ∈ pre, noteIdEq id m = false := fun m hm => by
    simpa [noteIdEq] using hpre m hm
  have hn' : noteIdEq id n = true := by simpa [noteIdEq] using hn
  refine ⟨?_, ?_, ?_⟩ <;>
    · unfold updateNote
      rw [hs, updateFirst_append _ _ pre n post hpre' hn']
      rfl

/-- Witness for C4: the three call shapes on a concrete one-note store. -/
theorem C4_updateNote_three_shapes_witness :
    (updateNote reviewStore "n1" "pick #x" 2 none).2 =
      some { mkNote "n1" "Review #idea please" 1 with content := "pick #x", updatedAt := 2, tags := extractTags "pick #x" } ∧
    (updateNote reviewStore "n1" "pick #x" 2 (some none)).2 =
      some { mkNote "n1" "Review #idea please" 1 with content := "pick #x", updatedAt := 2, tags := extractTags "pick #x", folderId := none } ∧
    (updateNote reviewStore "n1" "pick #x" 2 (some (some "F1"))).2 =
      some { mkNote "n1" "Review #idea please" 1 with content := "pick #x", updatedAt := 2, tags := extractTags "pick #x", folderId := some "F1" } := by
  have h := C4_updateNote_three_shapes reviewStore "n1" "pick #x" 2 []
    (mkNote "n1" "Review #idea please" 1) [] "F1" rfl (by simp) rfl
  exact ⟨by rw [h.1], by rw [h.2.1], by rw [h.2.2]⟩

/-- C7 as stated is false: `deleteFolder` on an id absent from the
folders collection still detaches notes that dangle-reference that id.
The store below is reachable (one `createNote` with folder id "g"), has
no folder with id "g", yet `deleteFolder "g"` changes the notes. -/
theorem C7_counterexample :
    ((runOps [Op.opCreate "n1" 5 "hello" (some "g")]).folders.all
        (fun f => !(f.id == "g")) = true) ∧
      deleteFolder (runOps [Op.opCreate "n1" 5 "hello" (some "g")]) "g" ≠
        runOps [Op.opCreate "n1" 5 "hello" (some "g")] := by
  constructor
  · decide
  · decide

/-- C7 amended: every mutating operation called with an id absent from
its collection is a silent no-op — `updateNote` and `togglePin` return
`none` with the store unchanged; `moveToTrash`, `restoreFromTrash`,
`deletePermanently` and `updateFolder` leave the store unchanged
record-for-record — and `deleteFolder` is a no-op provided additionally
no note's `folderId` and no folder's `parentId` dangle-references the
absent id (otherwise its two cascades still fire). -/
theorem C7_amended_absent_id_noop :
    (∀ (s : Store) (id content : String) (now : Nat) (fid : Option (Option String)),
      (∀ n ∈ s.notes, n.id ≠ id) → updateNote s id content now fid = (s, none)) ∧
    (∀ (s : Store) (id : String), (∀ n ∈ s.notes, n.id ≠ id) →
      togglePin s id = (s, none)) ∧
    (∀ (s : Store) (id : String), (∀ n ∈ s.notes, n.id ≠ id) →
      moveToTrash s id = s) ∧
    (∀ (s : Store) (id : String), (∀ n ∈ s.notes, n.id ≠ id) →
      restoreFromTrash s id = s) ∧
    (∀ (s : Store) (id : String), (∀ n ∈ s.notes, n.id ≠ id) →
      deletePermanently s id = s) ∧
    (∀ (s : Store) (id name : String), (∀ f ∈ s.folders, f.id ≠ id) →
      updateFolder s id name = s) ∧
    (∀ (s : Store) (id : String), (∀ f ∈ s.folders, f.id ≠ id) →
      (∀ f ∈ s.folders, f.parentId ≠ some id) → (∀ n ∈ s.notes, n.folderId ≠ some id) →
      deleteFolder s id = s) := by
  refine ⟨?_, ?_, ?_, ?_, ?_, ?_, ?_⟩
  · intro s id content now fid h
    have h' : ∀ n ∈ s.notes, noteIdEq id n = false := fun n hn => by
      simpa [noteIdEq] using h n hn
    unfold updateNote
    rw [updateFirst_none _ _ s.notes h']
  · intro s id h
    have h' : ∀ n ∈ s.notes, noteIdEq id n = false := fun n hn => by
      simpa [noteIdEq] using h n hn
    unfold togglePin
    rw [updateFirst_none _ _ s.notes h']
  · intro s id h
    have h' : ∀ n ∈ s.notes, noteIdEq id n = false := fun n hn => by
      simpa [noteIdEq] using h n hn
    unfold moveToTrash
    rw [updateFirst_none _ _ s.notes h']
  · intro s id h
    have h' : ∀ n ∈ s.notes, noteIdEq id n = false := fun n hn => by
      simpa [noteIdEq] using h n hn
    unfold restoreFromTrash
    rw [updateFirst_none _ _ s.notes h']
  · intro s id h
    unfold deletePermanently
    rw [List.filter_eq_self.mpr (fun n hn => by simpa using h n hn)]
  · intro s id name h
    have h' : ∀ f ∈ s.folders, folderIdEq id f = false := fun f hf => by
      simpa [folderIdEq] using h f hf
    unfold updateFolder
    rw [updateFirst_none _ _ s.folders h']
  · intro s id h1 h2 h3
    unfold deleteFolder
    rw [List.map_congr_left (g := fun n => n) (fun n hn => by simp [h3 n hn]),
      List.map_id']
    rw [List.map_congr_left (g := fun f => f) (fun f hf => by simp [h2 f hf]),
      List.map_id']
    rw [List.filter_eq_self.mpr (fun f hf => by simpa using h1 f hf)]

/-- Witness for C7-amended at a concrete store and an absent id. -/
theorem C7_amended_absent_id_noop_witness :
    updateNote reviewStore "zzz" "x" 3 none = (reviewStore, none) ∧
    togglePin reviewStore "zzz" = (reviewStore, none) ∧
    moveToTrash reviewStore "zzz" = reviewStore ∧
    restoreFromTrash reviewStore "zzz" = reviewStore ∧
    deletePermanently reviewStore "zzz" = reviewStore ∧
    updateFolder reviewStore "zzz" "nm" = reviewStore ∧
    deleteFolder reviewStore "zzz" = reviewStore :=
  ⟨C7_amended_absent_id_noop.1 reviewStore "zzz" "x" 3 none (by decide),
   C7_amended_absent_id_noop.2.1 reviewStore "zzz" (by decide),
   C7_amended_absent_id_noop.2.2.1 reviewStore "zzz" (by decide),
   C7_amended_absent_id_noop.2.2.2.1 reviewStore "zzz" (by decide),
   C7_amended_absent_id_noop.2.2.2.2.1 reviewStore "zzz" (by decide),
   C7_amended_absent_id_noop.2.2.2.2.2.1 reviewStore "zzz" "nm" (by decide),
   C7_amended_absent_id_noop.2.2.2.2.2.2 reviewStore "zzz" (by decide) (by decide) (by decide)⟩

/-- C8: the listing returns exactly the stored notes, sorted by
`updatedAt` descending, with ties kept in stored order (stability), and a
note freshly created at a time no earlier than every stored `updatedAt`
sorts first in the next listing. -/
theorem C8_listing_sorted_stable :
    (∀ s : Store, List.Perm (getAllNotes s) s.notes) ∧
    (∀ s : Store, (getAllNotes s).Pairwise (fun a b => b.updatedAt ≤ a.updatedAt)) ∧
    (∀ (s : Store) (a b : Note), List.Sublist [a, b] s.notes → b.updatedAt ≤ a.updatedAt →
      List.Sublist [a, b] (getAllNotes s)) ∧
    (∀ (s : Store) (newId : String) (now : Nat) (content : String) (fid : Option String),
      (∀ n ∈ s.notes, n.updatedAt ≤ now) →
      getAllNotes (createNote s newId now content fid).1 =
        (createNote s newId now content fid).2 :: getAllNotes s) := by
  refine ⟨?_, ?_, ?_, ?_⟩
  · intro s
    exact List.mergeSort_perm s.notes byUpdatedAtDesc
  · intro s
    have h := List.sorted_mergeSort byUpdatedAtDesc_trans byUpdatedAtDesc_total s.notes
    exact h.imp (fun hab => by simpa [byUpdatedAtDesc] using hab)
  · intro s a b hsub hle
    exact List.pair_sublist_mergeSort byUpdatedAtDesc_trans byUpdatedAtDesc_total
      (by simp [byUpdatedAtDesc, hle]) hsub
  · intro s newId now content fid h
    simp only [createNote, getAllNotes]
    exact mergeSort_cons_of_le (fun b hb => by
      simp [byUpdatedAtDesc]
      exact h b hb)

/-- Witness for C8's fresh-note conjunct at a concrete store. -/
theorem C8_listing_sorted_stable_witness :
    getAllNotes (createNote reviewStore "n2" 9 "zzz" none).1 =
      (createNote reviewStore "n2" 9 "zzz" none).2 :: getAllNotes reviewStore :=
  C8_listing_sorted_stable.2.2.2 reviewStore "n2" 9 "zzz" none (by decide)

/-- C5: `renameTag` rewrites exactly the notes whose derived tag set
contains the old tag — bounded `#oldTag` tokens become `#newTag`, tags
are recomputed, `updatedAt` is bumped — while other notes are untouched;
when no note's tag set contains the old tag nothing is written at all.
The boundary rule leaves `#idea2` alone, a note whose only tag is
`ideaX` is untouched by renaming `idea`, and the spec's concrete example
holds. -/
theorem C5_renameTag_bounded :
    (∀ (s : Store) (oldT newT : String) (now : Nat), TagsInv s →
      (∀ n ∈ s.notes, oldT ∉ extractTags n.content) →
      renameTag s oldT newT now = (s, false)) ∧
    (∀ (s : Store) (oldT newT : String) (now : Nat) (n : Note), TagsInv s →
      n ∈ s.notes → oldT ∈ extractTags n.content →
      renameTagNote oldT newT now n ∈ (renameTag s oldT newT now).1.notes ∧
        (renameTag s oldT newT now).2 = true) ∧
    (∀ (s : Store) (oldT newT : String) (now : Nat) (n : Note), TagsInv s →
      n ∈ s.notes → oldT ∉ extractTags n.content →
      n ∈ (renameTag s oldT newT now).1.notes) ∧
    (String.mk (replTok "idea".data ('#' :: "notion".data) "Review #idea please".data) =
      "Review #notion please") ∧
    (String.mk (replTok "idea".data ('#' :: "notion".data) "see #idea2 now".data) =
      "see #idea2 now") ∧
    (renameTag reviewStore "idea" "notion" 9 =
      ({ notes := [{ id := "n1", content := "Review #notion please", createdAt := 1, updatedAt := 9, isPinned := false, isTrashed := false, tags := ["notion"], folderId := none }], folders := [] }, true)) ∧
    (renameTag ideaXStore "idea" "notion" 9 = (ideaXStore, false)) := by
  refine ⟨?_, ?_, ?_, by decide, by decide, by decide, by decide⟩
  · intro s oldT newT now hInv h
    have hw : s.notes.any (fun n => n.tags.contains oldT) = false := by
      rw [List.any_eq_false]
      intro n hn
      rw [hInv n hn]
      simp [List.contains]
      exact h n hn
    simp only [renameTag]
    rw [hw]
    simp
  · intro s oldT newT now n hInv hn hmem
    have hc : n.tags.contains oldT = true := by
      rw [hInv n hn]
      simpa [List.contains] using hmem
    have hw : s.notes.any (fun m => m.tags.contains oldT) = true := by
      rw [List.any_eq_true]
      exact ⟨n, hn, hc⟩
    constructor
    · simp only [renameTag]
      rw [hw]
      simp only [if_pos rfl]
      exact List.mem_map.mpr ⟨n, hn, by rw [hc]; simp⟩
    · simp only [renameTag]
      rw [hw]
  · intro s oldT newT now n hInv hn hmem
    have hc : n.tags.contains oldT = false := by
      rw [hInv n hn]
      simp [List.contains]
      exact hmem
    by_cases hw : s.notes.any (fun m => m.tags.contains oldT) = true
    · simp only [renameTag]
      rw [hw]
      simp only [if_pos rfl]
      exact List.mem_map.mpr ⟨n, hn, by rw [hc]; simp⟩
    · simp only [renameTag, if_neg hw]
      exact hn

/-- Witness for C5 at the spec's concrete rename example. -/
theorem C5_renameTag_bounded_witness :
    renameTagNote "idea" "notion" 9 (mkNote "n1" "Review #idea please" 1) ∈
      (renameTag reviewStore "idea" "notion" 9).1.notes :=
  (C5_renameTag_bounded.2.1 reviewStore "idea" "notion" 9
    (mkNote "n1" "Review #idea please" 1) (by unfold TagsInv; decide) (by decide)
    (by decide)).1

/-- C6: `deleteTag` removes the bounded token from exactly the notes
whose derived tag set contains the tag, collapses whitespace runs of two
or more to a single space, recomputes tags, bumps `updatedAt`; other
notes are untouched, and when the tag is unused nothing is written. The
spec's concrete example holds. -/
theorem C6_deleteTag_bounded :
    (∀ (s : Store) (tag : String) (now : Nat), TagsInv s →
      (∀ n ∈ s.notes, tag ∉ extractTags n.content) →
      deleteTag s tag now = (s, false)) ∧
    (∀ (s : Store) (tag : String) (now : Nat) (n : Note), TagsInv s →
      n ∈ s.notes → tag ∈ extractTags n.content →
      deleteTagNote tag now n ∈ (deleteTag s tag now).1.notes ∧
        (deleteTag s tag now).2 = true) ∧
    (∀ (s : Store) (tag : String) (now : Nat) (n : Note), TagsInv s →
      n ∈ s.notes → tag ∉ extractTags n.content →
      n ∈ (deleteTag s tag now).1.notes) ∧
    (String.mk (collapseWs (replTok "idea".data [] "Check #idea   now".data)) =
      "Check now") ∧
    (deleteTag checkStore "idea" 9 =
      ({ notes := [{ id := "n1", content := "Check now", createdAt := 1, updatedAt := 9, isPinned := false, isTrashed := false, tags := [], folderId := none }], folders := [] }, true)) := by
  refine ⟨?_, ?_, ?_, by decide, by decide⟩
  · intro s tag now hInv h
    have hw : s.notes.any (fun n => n.tags.contains tag) = false := by
      rw [List.any_eq_false]
      intro n hn
      rw [hInv n hn]
      simp [List.contains]
      exact h n hn
    simp only [deleteTag]
    rw [hw]
    simp
  · intro s tag now n hInv hn hmem
    have hc : n.tags.contains tag = true := by
      rw [hInv n hn]
      simpa [List.contains] using hmem
    have hw : s.notes.any (fun m => m.tags.contains tag) = true := by
      rw [List.any_eq_true]
      exact ⟨n, hn, hc⟩
    constructor
    · simp only [deleteTag]
      rw [hw]
      simp only [if_pos rfl]
      exact List.mem_map.mpr ⟨n, hn, by rw [hc]; simp⟩
    · simp only [deleteTag]
      rw [hw]
  · intro s tag now n hInv hn hmem
    have hc : n.tags.contains tag = false := by
      rw [hInv n hn]
      simp [List.contains]
      exact hmem
    by_cases hw : s.notes.any (fun m => m.tags.contains tag) = true
    · simp only [deleteTag]
      rw [hw]
      simp only [if_pos rfl]
      exact List.mem_map.mpr ⟨n, hn, by rw [hc]; simp⟩
    · simp only [deleteTag, if_neg hw]
      exact hn

/-- Witness for C6 at the spec's concrete delete-tag example. -/
theorem C6_deleteTag_bounded_witness :
    deleteTagNote "idea" 9 (mkNote "n1" "Check #idea   now" 1) ∈
      (deleteTag checkStore "idea" 9).1.notes :=
  (C6_deleteTag_bounded.2.1 checkStore "idea" 9
    (mkNote "n1" "Check #idea   now" 1) (by unfold TagsInv; decide) (by decide)
    (by decide)).1

/-- C10: the whitespace collapse of `deleteTag` is global over the whole
content — after it no two adjacent whitespace characters remain anywhere
(so pre-existing runs and blank lines are collapsed too), run-free
content is left untouched, every affected note's new content is
run-free, and on the concrete note `"A  B\n\nC #idea D"` (a pre-existing
double space and a blank line far from the tag) deleting `idea` yields
`"A B C D"`. -/
theorem C10_collapse_is_global :
    (∀ l : List Char, noWsRun (collapseWs l) = true) ∧
    (∀ l : List Char, noWsRun l = true → collapseWs l = l) ∧
    (∀ (s : Store) (tag : String) (now : Nat) (n : Note), n ∈ s.notes →
      n.tags.contains tag = true →
      deleteTagNote tag now n ∈ (deleteTag s tag now).1.notes ∧
        noWsRun (deleteTagNote tag now n).content.data = true) ∧
    (deleteTag paraStore "idea" 9 =
      ({ notes := [{ id := "n1", content := "A B C D", createdAt := 1, updatedAt := 9, isPinned := false, isTrashed := false, tags := [], folderId := none }], folders := [] }, true)) := by
  refine ⟨?_, ?_, ?_, by decide⟩
  · intro l
    exact noWsRun_collapseF l.length l
  · intro l h
    exact collapseF_eq_self l.length l (Nat.le_refl _) h
  · intro s tag now n hn hc
    have hw : s.notes.any (fun m => m.tags.contains tag) = true := by
      rw [List.any_eq_true]
      exact ⟨n, hn, hc⟩
    constructor
    · simp only [deleteTag]
      rw [hw]
      simp only [if_pos rfl]
      exact List.mem_map.mpr ⟨n, hn, by rw [hc]; simp⟩
    · have h0 := noWsRun_collapseF (replTok tag.data [] n.content.data).length
        (replTok tag.data [] n.content.data)
      simpa [deleteTagNote, collapseWs] using h0

/-- Witness for C10 at the concrete blank-line note. -/
theorem C10_collapse_is_global_witness :
    deleteTagNote "idea" 9 (mkNote "n1" "A  B\n\nC #idea D" 1) ∈
      (deleteTag paraStore "idea" 9).1.notes ∧
      noWsRun (deleteTagNote "idea" 9 (mkNote "n1" "A  B\n\nC #idea D" 1)).content.data = true :=
  C10_collapse_is_global.2.2.1 paraStore "idea" 9
    (mkNote "n1" "A  B\n\nC #idea D" 1) (by decide) (by decide)

/-- Witness for C3 at a concrete store: the note in "F" is detached to
root and the child folder survives, promoted to root. -/
theorem C3_deleteFolder_cascades_witness :
    { noteInF with folderId := none } ∈ (deleteFolder folderStore "F").notes ∧
      { childFolder with parentId := none } ∈ (deleteFolder folderStore "F").folders :=
  ⟨(C3_deleteFolder_cascades folderStore "F").2.2.2.1 noteInF (by decide) (by decide),
   (C3_deleteFolder_cascades folderStore "F").2.2.2.2.1 childFolder (by decide)
     (by decide) (by decide)⟩

/-- C2: the "tags are always exactly the extraction from the current
content" invariant holds of the empty store and is preserved by every
operation of the engine, so it holds in every reachable state; moreover
`togglePin`, `moveToTrash` and `restoreFromTrash` do not touch any
note's content or tags. -/
theorem C2_tags_always_derived :
    (∀ (s : Store) (op : Op), TagsInv s → TagsInv (applyOp s op)) ∧
    (∀ ops : List Op, TagsInv (runOps ops)) ∧
    TagsInv emptyStore ∧
    (∀ (s : Store) (id : String),
      (togglePin s id).1.notes.map (fun n => (n.content, n.tags)) =
        s.notes.map (fun n => (n.content, n.tags))) ∧
    (∀ (s : Store) (id : String),
      (moveToTrash s id).notes.map (fun n => (n.content, n.tags)) =
        s.notes.map (fun n => (n.content, n.tags))) ∧
    (∀ (s : Store) (id : String),
      (restoreFromTrash s id).notes.map (fun n => (n.content, n.tags)) =
        s.notes.map (fun n => (n.content, n.tags))) := by
  have hstep : ∀ (s : Store) (op : Op), TagsInv s → TagsInv (applyOp s op) := by
    intro s op hInv
    cases op with
    | opCreate newId now content fid =>
      intro n hn
      rcases List.mem_cons.mp hn with rfl | h
      · rfl
      · exact hInv n h
    | opUpdate id content now fid =>
      simp only [applyOp, updateNote]
      split
      · exact hInv
      · rename_i ns r heq
        intro n hn
        exact updateFirst_pres (P := fun m : Note => m.tags = extractTags m.content)
          (f := updateNoteFun content now fid) (fun x _ => rfl) heq hInv n hn
    | opTogglePin id =>
      simp only [applyOp, togglePin]
      split
      · exact hInv
      · rename_i ns r heq
        intro n hn
        exact updateFirst_pres (P := fun m : Note => m.tags = extractTags m.content)
          (f := togglePinFun) (fun x hx => hx) heq hInv n hn
    | opMoveToTrash id =>
      simp only [applyOp, moveToTrash]
      split
      · exact hInv
      · rename_i ns r heq
        intro n hn
        exact updateFirst_pres (P := fun m : Note => m.tags = extractTags m.content)
          (f := trashFun) (fun x hx => hx) heq hInv n hn
    | opRestore id =>
      simp only [applyOp, restoreFromTrash]
      split
      · exact hInv
      · rename_i ns r heq
        intro n hn
        exact updateFirst_pres (P := fun m : Note => m.tags = extractTags m.content)
          (f := restoreFun) (fun x hx => hx) heq hInv n hn
    | opDeletePermanently id =>
      intro n hn
      exact hInv n (List.mem_of_mem_filter hn)
    | opRenameTag oldT newT now =>
      intro n hn
      simp only [applyOp, renameTag] at hn
      split at hn
      · obtain ⟨m, hm, hgm⟩ := List.mem_map.mp hn
        rw [← hgm]
        by_cases hc : m.tags.contains oldT = true
        · rw [if_pos hc]
          rfl
        · rw [if_neg hc]
          exact hInv m hm
      · exact hInv n hn
    | opDeleteTag tag now =>
      intro n hn
      simp only [applyOp, deleteTag] at hn
      split at hn
      · obtain ⟨m, hm, hgm⟩ := List.mem_map.mp hn
        rw [← hgm]
        by_cases hc : m.tags.contains tag = true
        · rw [if_pos hc]
          rfl
        · rw [if_neg hc]
          exact hInv m hm
      · exact hInv n hn
    | opCreateFolder newId now name parentId =>
      exact hInv
    | opUpdateFolder id name =>
      simp only [applyOp, updateFolder]
      split
      · exact hInv
      · exact hInv
    | opDeleteFolder id =>
      intro n hn
      obtain ⟨m, hm, hgm⟩ := List.mem_map.mp hn
      rw [← hgm]
      by_cases h : (m.folderId == some id) = true
      · rw [if_pos h]
        exact hInv m hm
      · rw [if_neg h]
        exact hInv m hm
  have hbase : TagsInv emptyStore := by
    intro n hn
    simp [emptyStore] at hn
  refine ⟨hstep, ?_, hbase, ?_, ?_, ?_⟩
  · intro ops
    have hrun : ∀ (l : List Op) (t : Store), TagsInv t → TagsInv (l.foldl applyOp t) := by
      intro l
      induction l with
      | nil => intro t ht; exact ht
      | cons op l ih =>
        intro t ht
        exact ih (applyOp t op) (hstep t op ht)
    exact hrun ops emptyStore hbase
  · intro s id
    simp only [togglePin]
    split
    · rfl
    · rename_i ns r heq
      exact updateFirst_map_inv (f := togglePinFun) (fun n : Note => (n.content, n.tags)) (fun x => rfl) heq
  · intro s id
    simp only [moveToTrash]
    split
    · rfl
    · rename_i ns r heq
      exact updateFirst_map_inv (f := trashFun) (fun n : Note => (n.content, n.tags)) (fun x => rfl) heq
  · intro s id
    simp only [restoreFromTrash]
    split
    · rfl
    · rename_i ns r heq
      exact updateFirst_map_inv (f := restoreFun) (fun n : Note => (n.content, n.tags)) (fun x => rfl) heq

/-- Witness for C2 at a concrete store and operation. -/
theorem C2_tags_always_derived_witness :
    TagsInv (applyOp reviewStore (Op.opUpdate "n1" "new #tag" 5 none)) :=
  C2_tags_always_derived.1 reviewStore (Op.opUpdate "n1" "new #tag" 5 none)
    (by unfold TagsInv; decide)

/-- C1 as stated is false: `togglePin` performs no trash check, so the
reachable state below (create, trash, then toggle pin) holds a note with
`isTrashed = true` and `isPinned = true`. -/
theorem C1_counterexample :
    (runOps [Op.opCreate "n1" 0 "" none, Op.opMoveToTrash "n1",
      Op.opTogglePin "n1"]).notes.any (fun n => n.isTrashed && n.isPinned) = true := by
  decide

/-- C1 amended: `moveToTrash` sets `isTrashed = true` and
`isPinned = false` on the targeted note (under unique ids) and is
idempotent, and every operation except `togglePin` preserves the
implication `isTrashed ⟹ not isPinned`; `togglePin` preserves it only
when its target note is not trashed (applied to a trashed note it can
pin it, so the implication is not a reachability invariant). -/
theorem C1_amended_trash_unpins :
    (∀ (s : Store) (id : String), (s.notes.map Note.id).Nodup →
      ∀ n ∈ (moveToTrash s id).notes, n.id = id →
        n.isTrashed = true ∧ n.isPinned = false) ∧
    (∀ (s : Store) (id : String), moveToTrash (moveToTrash s id) id = moveToTrash s id) ∧
    (∀ (s : Store) (op : Op), TrashInv s →
      (∀ id, op = Op.opTogglePin id → ∀ n ∈ s.notes, n.id = id → n.isTrashed = false) →
      TrashInv (applyOp s op)) := by
  refine ⟨?_, ?_, ?_⟩
  · intro s id hnd n hn hid
    cases h : updateFirst (noteIdEq id) trashFun s.notes with
    | none =>
      have h0 : moveToTrash s id = s := by unfold moveToTrash; rw [h]
      rw [h0] at hn
      have h1 := updateFirst_eq_none h n hn
      simp [noteIdEq, hid] at h1
    | some pr =>
      obtain ⟨ns, r⟩ := pr
      have h0 : moveToTrash s id = { s with notes := ns } := by unfold moveToTrash; rw [h]
      rw [h0] at hn
      obtain ⟨pre, x, post, hl, hpre, hx, hl', hr⟩ := updateFirst_eq_some h
      subst hl'
      have hn' : n ∈ pre ++ trashFun x :: post := hn
      rcases List.mem_append.mp hn' with h1 | h2
      · have h3 := hpre n h1
        simp [noteIdEq, hid] at h3
      · rcases List.mem_cons.mp h2 with rfl | h3
        · exact ⟨rfl, rfl⟩
        · exfalso
          have hxid : x.id = id := by simpa [noteIdEq] using hx
          rw [hl, List.map_append, List.map_cons] at hnd
          have h4 := hnd.of_append_right
          have h5 : x.id ∉ post.map Note.id := (List.nodup_cons.mp h4).1
          refine h5 ?_
          rw [hxid, ← hid]
          exact List.mem_map_of_mem Note.id h3
  · intro s id
    cases h : updateFirst (noteIdEq id) trashFun s.notes with
    | none =>
      have h0 : moveToTrash s id = s := by unfold moveToTrash; rw [h]
      rw [h0]
      exact h0
    | some pr =>
      obtain ⟨ns, r⟩ := pr
      have h0 : moveToTrash s id = { s with notes := ns } := by unfold moveToTrash; rw [h]
      rw [h0]
      obtain ⟨pre, x, post, hl, hpre, hx, hl', hr⟩ := updateFirst_eq_some h
      subst hl'
      have h2 : updateFirst (noteIdEq id) trashFun (pre ++ trashFun x :: post) =
          some (pre ++ trashFun (trashFun x) :: post, trashFun (trashFun x)) :=
        updateFirst_append _ _ pre (trashFun x) post hpre hx
      unfold moveToTrash
      dsimp only
      rw [h2]
      rfl
  · intro s op hInv hcond
    cases op with
    | opCreate newId now content fid =>
      intro n hn
      rcases List.mem_cons.mp hn with rfl | h
      · simp
      · exact hInv n h
    | opUpdate id content now fid =>
      simp only [applyOp, updateNote]
      split
      · exact hInv
      · rename_i ns r heq
        intro n hn
        exact updateFirst_pres
          (P := fun m : Note => m.isTrashed = true → m.isPinned = false)
          (f := updateNoteFun content now fid) (fun x hx => hx) heq hInv n hn
    | opTogglePin id =>
      have hside := hcond id rfl
      simp only [applyOp, togglePin]
      split
      · exact hInv
      · rename_i ns r heq
        intro n hn
        rcases updateFirst_mem heq n hn with h1 | ⟨y, hy, hp, rfl⟩
        · exact hInv n h1
        · have hyid : y.id = id := by simpa [noteIdEq] using hp
          have hyt : y.isTrashed = false := hside y hy hyid
          intro htr
          rw [show (togglePinFun y).isTrashed = y.isTrashed from rfl, hyt] at htr
          cases htr
    | opMoveToTrash id =>
      simp only [applyOp, moveToTrash]
      split
      · exact hInv
      · rename_i ns r heq
        intro n hn
        rcases updateFirst_mem heq n hn with h1 | ⟨y, hy, hp, rfl⟩
        · exact hInv n h1
        · intro _
          rfl
    | opRestore id =>
      simp only [applyOp, restoreFromTrash]
      split
      · exact hInv
      · rename_i ns r heq
        intro n hn
        rcases updateFirst_mem heq n hn with h1 | ⟨y, hy, hp, rfl⟩
        · exact hInv n h1
        · intro htr
          rw [show (restoreFun y).isTrashed = false from rfl] at htr
          cases htr
    | opDeletePermanently id =>
      intro n hn
      exact hInv n (List.mem_of_mem_filter hn)
    | opRenameTag oldT newT now =>
      intro n hn
      simp only [applyOp, renameTag] at hn
      split at hn
      · obtain ⟨m, hm, hgm⟩ := List.mem_map.mp hn
        rw [← hgm]
        by_cases hc : m.tags.contains oldT = true
        · rw [if_pos hc]
          exact hInv m hm
        · rw [if_neg hc]
          exact hInv m hm
      · exact hInv n hn
    | opDeleteTag tag now =>
      intro n hn
      simp only [applyOp, deleteTag] at hn
      split at hn
      · obtain ⟨m, hm, hgm⟩ := List.mem_map.mp hn
        rw [← hgm]
        by_cases hc : m.tags.contains tag = true
        · rw [if_pos hc]
          exact hInv m hm
        · rw [if_neg hc]
          exact hInv m hm
      · exact hInv n hn
    | opCreateFolder newId now name parentId =>
      exact hInv
    | opUpdateFolder id name =>
      simp only [applyOp, updateFolder]
      split
      · exact hInv
      · exact hInv
    | opDeleteFolder id =>
      intro n hn
      obtain ⟨m, hm, hgm⟩ := List.mem_map.mp hn
      rw [← hgm]
      by_cases h : (m.folderId == some id) = true
      · rw [if_pos h]
        exact hInv m hm
      · rw [if_neg h]
        exact hInv m hm

/-- Witness for C1-amended: trashing the single note of a concrete store
leaves it trashed and unpinned. -/
theorem C1_amended_trash_unpins_witness :
    (trashFun (mkNote "n1" "" 0)).isTrashed = true ∧
      (trashFun (mkNote "n1" "" 0)).isPinned = false :=
  C1_amended_trash_unpins.1 (runOps [Op.opCreate "n1" 0 "" none]) "n1" (by decide)
    (trashFun (mkNote "n1" "" 0)) (by decide) (by decide)
